import Mathlib

/-!
# Verification of the storage-api upload/delete service

Shallow embedding of `src/index.ts` (an Express file-storage service).
JavaScript strings are modelled as lists of code points (`List Nat`);
filesystem paths are modelled as lists of segments (`List (List Nat)`),
read as absolute POSIX paths.  Stateful handlers are modelled as pure
functions from an explicit filesystem state (a list of stored file
paths) to a response together with the new state.
-/

namespace StorageApi

/-- Code points of a Lean string literal, used to write concrete
JavaScript strings of the source. -/
def str (s : String) : List Nat := s.toList.map Char.toNat

/-- ASCII lower-casing of a single code point: the effect of
`userPath.toLowerCase()` on the characters relevant to the regex class
`[a-zA-Z0-9/]` (no Unicode code point lower-cases into `A`-`Z`, so the
ASCII fragment is faithful for the normalizer's output alphabet). -/
def jsLower (c : Nat) : Nat := if 65 ≤ c ∧ c ≤ 90 then c + 32 else c

/-- The character class `[a-zA-Z0-9\/]` of the regex in
`storage.destination`: ASCII letters, digits, and `/` (code 47). -/
def isPathAllowed (c : Nat) : Prop :=
  (97 ≤ c ∧ c ≤ 122) ∨ (65 ≤ c ∧ c ≤ 90) ∨ (48 ≤ c ∧ c ≤ 57) ∨ c = 47

instance (c : Nat) : Decidable (isPathAllowed c) := by
  unfold isPathAllowed; exact inferInstance

/-- `.replace(/[^a-zA-Z0-9\/]+/g, "/")`: every maximal run of characters
outside the class becomes a single `/` (code 47).  The boolean flag
records whether the previous character was part of such a run. -/
def normRun : Bool → List Nat → List Nat
  | _, [] => []
  | inRun, c :: cs =>
    if isPathAllowed c then c :: normRun false cs
    else if inRun then normRun true cs
    else 47 :: normRun true cs

/-- `normalizedPath` in `storage.destination`:
`userPath.toLowerCase().replace(/[^a-zA-Z0-9\/]+/g, "/")`. -/
def normalize (s : List Nat) : List Nat := normRun false (s.map jsLower)

/-- The output alphabet claimed for the normalizer: lowercase ASCII
letters, digits, and `/`. -/
def isNormalizedChar (c : Nat) : Prop :=
  (97 ≤ c ∧ c ≤ 122) ∨ (48 ≤ c ∧ c ≤ 57) ∨ c = 47

instance (c : Nat) : Decidable (isNormalizedChar c) := by
  unfold isNormalizedChar; exact inferInstance


/-! ## Filename derivation (`storage.filename`) -/

/-- Decimal digits of a natural number, fuel-driven so that it reduces
definitionally.  Models the decimal rendering of `Date.now()`. -/
def natDecimalAux : Nat → Nat → List Nat
  | 0, _ => []
  | fuel + 1, n =>
    if n < 10 then [48 + n]
    else natDecimalAux fuel (n / 10) ++ [48 + n % 10]

/-- Decimal rendering of a natural number as code points. -/
def natDecimal (n : Nat) : List Nat := natDecimalAux (n + 1) n


/-- Split a code-point string on a separator code, keeping empty pieces,
as `String.prototype.split` does. -/
def splitOnCode (sep : Nat) : List Nat → List (List Nat)
  | [] => [[]]
  | c :: cs =>
    match splitOnCode sep cs with
    | [] => [[]]
    | s :: rest => if c = sep then [] :: s :: rest else (c :: s) :: rest

/-- Split on `/` (code 47), the path separator. -/
def splitSlash (s : List Nat) : List (List Nat) := splitOnCode 47 s

/-- Split on `,` (code 44): `String(filenames).split(",")`. -/
def splitComma (s : List Nat) : List (List Nat) := splitOnCode 44 s

/-- The final `/`-separated component of a path string, which is what
`path.extname` and `path.basename` operate on. -/
def lastSeg (s : List Nat) : List Nat := (splitSlash s).getLastD []

/-- Index of the last `.` (code 46) in a segment, if any. -/
def lastDotIdx (seg : List Nat) : Option Nat :=
  match seg.reverse.findIdx? (fun c => c = 46) with
  | none => none
  | some j => some (seg.length - 1 - j)

/-- `path.extname(p)`: the substring of the final segment from its last
`.` (inclusive) to the end, empty when there is no `.` or when the only
`.` is the leading character of the segment. -/
def extname (s : List Nat) : List Nat :=
  match lastDotIdx (lastSeg s) with
  | none => []
  | some i => if i = 0 then [] else (lastSeg s).drop i

/-- `path.basename(p, ext)`: the final segment with the suffix `ext`
removed when `ext` is a nonempty proper suffix of it. -/
def basenameExt (s ext : List Nat) : List Nat :=
  if ext ≠ [] ∧ ext.length < (lastSeg s).length ∧ ext.isSuffixOf (lastSeg s) then
    (lastSeg s).take ((lastSeg s).length - ext.length)
  else lastSeg s

/-- Alphanumeric ASCII code points, the class `[a-zA-Z0-9]` of the
regex in `storage.filename`. -/
def isAlphaNumCode (c : Nat) : Prop :=
  (97 ≤ c ∧ c ≤ 122) ∨ (65 ≤ c ∧ c ≤ 90) ∨ (48 ≤ c ∧ c ≤ 57)

instance (c : Nat) : Decidable (isAlphaNumCode c) := by
  unfold isAlphaNumCode; exact inferInstance

/-- `.replace(/[^a-zA-Z0-9]+/g, "-")` on the basename: maximal runs of
non-alphanumerics become a single `-` (code 45).  No lower-casing. -/
def sanRun : Bool → List Nat → List Nat
  | _, [] => []
  | inRun, c :: cs =>
    if isAlphaNumCode c then c :: sanRun false cs
    else if inRun then sanRun true cs
    else 45 :: sanRun true cs

/-- The sanitized base name (`originalName` in `storage.filename`). -/
def sanitizeBase (s : List Nat) : List Nat := sanRun false s

/-- `storage.filename`: `` `${Date.now()}-${originalName}${extension}` ``
where `extension = path.extname(file.originalname)` and `originalName`
is the sanitized basename.  `now` stands for `Date.now()`. -/
def deriveFilename (now : Nat) (orig : List Nat) : List Nat :=
  natDecimal now ++ [45] ++ sanitizeBase (basenameExt orig (extname orig)) ++ extname orig


/-! ## Path resolution (`path.join`)

Absolute POSIX paths are lists of segments.  `path.join` concatenates
its arguments with `/` and normalizes the result; on an absolute path a
`..` segment removes the previous segment (clamping at the root), `.`
and empty segments disappear. -/

/-- One step of POSIX normalization of an absolute path. -/
def resolveStep (acc : List (List Nat)) (seg : List Nat) : List (List Nat) :=
  if seg = [] ∨ seg = [46] then acc
  else if seg = [46, 46] then acc.dropLast
  else acc ++ [seg]

/-- Normalization of an absolute path given as raw segments. -/
def resolveAbs (segs : List (List Nat)) : List (List Nat) :=
  segs.foldl resolveStep []

/-- `path.join(__dirname, "../public/uploads")`: the upload root, the
directory under which all stored files live (it is also the directory
served statically at `/uploads`). -/
def uploadRoot (dirname : List (List Nat)) : List (List Nat) :=
  resolveAbs (dirname ++ [str "..", str "public", str "uploads"])

/-- `path.join(__dirname, "../public")`: the parent directory of the
upload root. -/
def publicDir (dirname : List (List Nat)) : List (List Nat) :=
  resolveAbs (dirname ++ [str "..", str "public"])

/-- The destination directory computed by `storage.destination`:
`path.join(__dirname, "../public/uploads", normalizedPath)`. -/
def destinationPath (dirname : List (List Nat)) (userPath : List Nat) : List (List Nat) :=
  resolveAbs (dirname ++ [str "..", str "public", str "uploads"] ++
    splitSlash (normalize userPath))

/-- The join-and-mkdir stage of `storage.destination`, after the
normalized subpath has been computed: it joins the upload root with the
given subpath and calls `fs.mkdir`; its only failure is a failed
`mkdir` (`cb(new Error("Failed to create directory."), "")`), there is
no containment check on the resolved path. -/
def resolveStage (dirname : List (List Nat)) (normalizedPath : List Nat)
    (mkdirOk : Bool) : Except (List Nat) (List (List Nat)) :=
  if mkdirOk then
    .ok (resolveAbs (dirname ++ [str "..", str "public", str "uploads"] ++
      splitSlash normalizedPath))
  else .error (str "Failed to create directory.")

/-- The absolute candidate built by the delete handler for one
requested filename: `path.join(__dirname, "../public", String(filename))`. -/
def deleteCandidate (dirname : List (List Nat)) (filename : List Nat) : List (List Nat) :=
  resolveAbs (dirname ++ [str "..", str "public"] ++ splitSlash filename)

/-- The candidate list `files` of the delete handler, one per
comma-separated filename. -/
def deleteCandidates (dirname : List (List Nat)) (filenamesQ : List Nat) :
    List (List (List Nat)) :=
  (splitComma filenamesQ).map (deleteCandidate dirname)

/-- Render an absolute segment path back to a path string. -/
def renderPath (p : List (List Nat)) : List Nat :=
  47 :: List.intercalate [47] p

/-! ## API key gate (`validateApiKey`) -/

/-- `validateApiKey`: the request passes when the `x-api-key` header is
present, truthy (a nonempty string), and strictly equal to
`process.env.API_KEY`.  `none` models an absent header or an unset
environment variable. -/
def validateApiKey (header envKey : Option (List Nat)) : Bool :=
  match header with
  | none => false
  | some s => if s = [] then false else decide (some s = envKey)

/-! ## Upload endpoint (`app.post("/upload", ...)`) -/

/-- A file of a multipart upload request, as handed to the handler by
the multipart middleware. -/
structure UploadedFile where
  originalname : List Nat
deriving DecidableEq

/-- A JSON response of the upload endpoint: HTTP status, `message`
field, and the `files` array of
`{originalname, filename, path}` records. -/
structure UploadResponse where
  status : Nat
  message : List Nat
  files : List (List Nat × List Nat × List Nat)
deriving DecidableEq

/-- `file.path.replace(path.join(__dirname, "../public"), "")`: the
stored path with the public-directory prefix removed. -/
def stripPrefixStr (a p : List Nat) : List Nat :=
  if p <+: a then a.drop p.length else a

/-- The upload endpoint: API-key gate, then multipart processing, then
the handler.  `reqFiles` is `req.files` as set by the middleware
(`none` when it is not an array, `some files` otherwise; with zero
files present the middleware sets `some []`).  The second component
lists the absolute paths written to the filesystem: nothing is written
when the gate rejects, and one file per uploaded file otherwise. -/
def uploadEndpoint (envKey header : Option (List Nat)) (dirname : List (List Nat))
    (userPath : List Nat) (now : Nat) (reqFiles : Option (List UploadedFile)) :
    UploadResponse × List (List (List Nat)) :=
  if validateApiKey header envKey then
    match reqFiles with
    | none => (⟨400, str "No files were uploaded.", []⟩, [])
    | some files =>
      let dest := destinationPath dirname userPath
      (⟨200, str "Files uploaded successfully.",
        files.map (fun f =>
          let fn := deriveFilename now f.originalname
          (f.originalname, fn,
            stripPrefixStr (renderPath (dest ++ [fn])) (renderPath (publicDir dirname))))⟩,
       files.map (fun f => dest ++ [deriveFilename now f.originalname]))
  else (⟨403, str "Forbidden: Invalid API Key", []⟩, [])

/-! ## Delete endpoint (`app.delete("/delete", ...)`) -/

/-- The filesystem state: the list of absolute paths of stored files. -/
abbrev FS := List (List (List Nat))

/-- The outcome of one `fs.promises.unlink`, after the per-file
`.catch((err) => err)`: either fulfilled, or the caught error (carrying
its message string). -/
inductive UnlinkResult where
  | ok : UnlinkResult
  | err : List Nat → UnlinkResult
deriving DecidableEq

/-- The message of the `ENOENT` error Node raises when unlinking a
missing path; it embeds the absolute path handed to `unlink` (code 39
is the single-quote character). -/
def enoentMsg (p : List (List Nat)) : List Nat :=
  str "ENOENT: no such file or directory, unlink " ++ [39] ++ renderPath p ++ [39]

/-- `fs.promises.unlink(filePath).catch((err) => err)`: removing a
present path succeeds; a missing path leaves the state unchanged and
yields the caught `ENOENT` error. -/
def unlinkModel (fs : FS) (p : List (List Nat)) : FS × UnlinkResult :=
  if p ∈ fs then (fs.erase p, .ok) else (fs, .err (enoentMsg p))

/-- `Promise.all(files.map(...))`: every candidate is unlinked, each
with its own local `.catch`, and the results are collected in order. -/
def runDeletes (fs : FS) : List (List (List Nat)) → FS × List UnlinkResult
  | [] => (fs, [])
  | p :: ps =>
    let step := unlinkModel fs p
    let rest := runDeletes step.1 ps
    (rest.1, step.2 :: rest.2)

/-- `results.filter((r) => r instanceof Error).map((e) => e.message)`:
the messages of the failed deletions, in order. -/
def collectErrors (rs : List UnlinkResult) : List (List Nat) :=
  rs.filterMap (fun r => match r with | .ok => none | .err m => some m)

/-- A JSON response of the delete endpoint. -/
structure DeleteResponse where
  status : Nat
  message : List Nat
  errors : List (List Nat)
deriving DecidableEq

/-- The aggregation at the end of the delete handler: any error yields
a 500 response listing every error message, otherwise a 200 response. -/
def deleteAggregate (rs : List UnlinkResult) : DeleteResponse :=
  let errs := collectErrors rs
  if errs.isEmpty then ⟨200, str "Files deleted successfully.", []⟩
  else ⟨500, str "Error deleting files.", errs⟩

/-- Result of one delete request: the response and the new filesystem
state. -/
structure DeleteOutcome where
  response : DeleteResponse
  fs : FS
deriving DecidableEq

/-- The delete endpoint: API-key gate, `filenames` presence check
(absent or empty is falsy, hence 400), then the unlink-and-aggregate
pipeline over the comma-separated candidates. -/
def deleteEndpoint (envKey header : Option (List Nat)) (dirname : List (List Nat))
    (filenamesQ : Option (List Nat)) (fs : FS) : DeleteOutcome :=
  if validateApiKey header envKey then
    match filenamesQ with
    | none => ⟨⟨400, str "Filenames are required.", []⟩, fs⟩
    | some q =>
      if q = [] then ⟨⟨400, str "Filenames are required.", []⟩, fs⟩
      else
        let run := runDeletes fs (deleteCandidates dirname q)
        ⟨deleteAggregate run.2, run.1⟩
  else ⟨⟨403, str "Forbidden: Invalid API Key", []⟩, fs⟩

/-- The requested candidates that fail, i.e. are absent from the
filesystem state at their turn: a direct characterization of which
deletions of a request produce errors. -/
def failedPaths (fs : FS) : List (List (List Nat)) → List (List (List Nat))
  | [] => []
  | p :: ps =>
    if p ∈ fs then failedPaths (fs.erase p) ps else p :: failedPaths fs ps

/-- A concrete `__dirname` used by concrete evaluations: `/srv/app/dist`. -/
def dirC : List (List Nat) := [str "srv", str "app", str "dist"]

/-- The shape the spec claims for `deriveFilename("My File.PNG")`:
a match of `^\d+-my-file\.PNG$`. -/
def matchesTimestampLowerName (s : List Nat) : Prop :=
  ∃ d : List Nat, d ≠ [] ∧ (∀ c ∈ d, 48 ≤ c ∧ c ≤ 57) ∧ s = d ++ str "-my-file.PNG"

/-! ## Helper lemmas -/

lemma jsLower_not_upper (c : Nat) : ¬ (65 ≤ jsLower c ∧ jsLower c ≤ 90) := by
  unfold jsLower; split <;> omega

lemma mem_normRun {l : List Nat} (hl : ∀ c ∈ l, ¬ (65 ≤ c ∧ c ≤ 90)) :
    ∀ b, ∀ c ∈ normRun b l, isNormalizedChar c := by
  induction l with
  | nil => intro b c hc; simp [normRun] at hc
  | cons a as ih =>
    intro b c hc
    have ha := hl a (by simp)
    have has : ∀ c ∈ as, ¬ (65 ≤ c ∧ c ≤ 90) := fun c hc => hl c (by simp [hc])
    by_cases h : isPathAllowed a
    · simp only [normRun, if_pos h, List.mem_cons] at hc
      rcases hc with rfl | hc
      · unfold isPathAllowed at h; unfold isNormalizedChar; omega
      · exact ih has false c hc
    · cases b with
      | true =>
        simp only [normRun, if_neg h, if_pos rfl] at hc
        exact ih has true c hc
      | false =>
        simp [normRun, h] at hc
        rcases hc with rfl | hc
        · unfold isNormalizedChar; omega
        · exact ih has true c hc

lemma normalize_mem (s : List Nat) : ∀ c ∈ normalize s, isNormalizedChar c := by
  apply mem_normRun
  intro c hc
  rw [List.mem_map] at hc
  obtain ⟨c0, -, rfl⟩ := hc
  exact jsLower_not_upper c0

lemma normalize_no_dot (s : List Nat) : 46 ∉ normalize s := by
  intro h
  have := normalize_mem s 46 h
  unfold isNormalizedChar at this
  omega

lemma normRun_id {l : List Nat} (hl : ∀ c ∈ l, isPathAllowed c) :
    normRun false l = l := by
  induction l with
  | nil => rfl
  | cons a as ih =>
    have ha := hl a (by simp)
    have := ih (fun c hc => hl c (by simp [hc]))
    simp only [normRun, if_pos ha, this]

/-! ## C1 and C10: the path normalizer -/

/-- C1: for every input string, the path normalizer returns a string
composed only of lowercase ASCII alphanumerics and `/`; in particular
no `.` character and no `..` traversal token can appear in the output. -/
theorem normalize_only_safe_chars (s : List Nat) :
    (∀ c ∈ normalize s, isNormalizedChar c) ∧
    46 ∉ normalize s ∧ ¬ str ".." <:+: normalize s := by
  refine ⟨normalize_mem s, normalize_no_dot s, ?_⟩
  intro h
  exact normalize_no_dot s (h.subset (by decide))

/-- C10: the path normalizer is idempotent. -/
theorem normalize_idempotent (s : List Nat) :
    normalize (normalize s) = normalize s := by
  show normRun false ((normalize s).map jsLower) = normalize s
  have hmap : (normalize s).map jsLower = normalize s := by
    have h : ∀ c ∈ normalize s, jsLower c = id c := by
      intro c hc
      have := normalize_mem s c hc
      unfold isNormalizedChar at this
      unfold jsLower; simp only [id]; split <;> omega
    rw [List.map_congr_left h, List.map_id]
  rw [hmap]
  apply normRun_id
  intro c hc
  have := normalize_mem s c hc
  unfold isNormalizedChar at this
  unfold isPathAllowed
  omega

/-! ## C6: filename derivation -/

lemma natDecimalAux_spec : ∀ fuel n, n < fuel →
    natDecimalAux fuel n ≠ [] ∧ ∀ c ∈ natDecimalAux fuel n, 48 ≤ c ∧ c ≤ 57 := by
  intro fuel
  induction fuel with
  | zero => intro n h; exact absurd h (Nat.not_lt_zero n)
  | succ f ih =>
    intro n h
    by_cases h10 : n < 10
    · refine ⟨by simp [natDecimalAux, h10], ?_⟩
      intro c hc
      simp only [natDecimalAux, if_pos h10, List.mem_singleton] at hc
      omega
    · have hdiv : n / 10 < f := by
        have h1 : n / 10 < n := Nat.div_lt_self (by omega) (by omega)
        omega
      obtain ⟨hne, hd⟩ := ih (n / 10) hdiv
      refine ⟨by simp [natDecimalAux, h10], ?_⟩
      intro c hc
      simp only [natDecimalAux, if_neg h10, List.mem_append, List.mem_singleton] at hc
      rcases hc with hc | rfl
      · exact hd c hc
      · omega

lemma natDecimal_ne_nil (n : Nat) : natDecimal n ≠ [] :=
  (natDecimalAux_spec (n + 1) n (Nat.lt_succ_self n)).1

lemma natDecimal_digits (n : Nat) : ∀ c ∈ natDecimal n, 48 ≤ c ∧ c ≤ 57 :=
  (natDecimalAux_spec (n + 1) n (Nat.lt_succ_self n)).2

/-- C6 counterexample: `deriveFilename` applied to `"My File.PNG"` does
not match `^\d+-my-file\.PNG$` — the base keeps its original casing. -/
theorem deriveFilename_not_lowercased :
    ¬ matchesTimestampLowerName (deriveFilename 1700000000000 (str "My File.PNG")) := by
  rintro ⟨d, -, -, heq⟩
  have hs : str "-my-file.PNG" <:+ deriveFilename 1700000000000 (str "My File.PNG") := by
    rw [heq]; exact List.suffix_append d _
  exact absurd hs (by decide)

/-- C6 (amended): `deriveFilename` on `"My File.PNG"` yields
`{epochMillis}-My-File.PNG`: the base has its runs of non-alphanumerics
replaced by a single `-` but keeps its original casing, and the
extension `.PNG` is preserved verbatim; the prefix is a nonempty string
of decimal digits. -/
theorem deriveFilename_myFilePNG (t : Nat) :
    deriveFilename t (str "My File.PNG") = natDecimal t ++ str "-My-File.PNG" ∧
    natDecimal t ≠ [] ∧ ∀ c ∈ natDecimal t, 48 ≤ c ∧ c ≤ 57 := by
  refine ⟨?_, natDecimal_ne_nil t, natDecimal_digits t⟩
  unfold deriveFilename
  simp only [List.append_assoc]
  congr 1

deriving instance DecidableEq for Except

/-! ## Path-resolution lemmas -/

lemma resolveAbs_append (xs ys : List (List Nat)) :
    resolveAbs (xs ++ ys) = List.foldl resolveStep (resolveAbs xs) ys := by
  simp [resolveAbs, List.foldl_append]

lemma foldl_resolveStep_plain :
    ∀ (l acc : List (List Nat)),
      (∀ s ∈ l, s ≠ [] ∧ s ≠ [46] ∧ s ≠ [46, 46]) →
      List.foldl resolveStep acc l = acc ++ l := by
  intro l
  induction l with
  | nil => intro acc _; simp
  | cons a as ih =>
    intro acc hl
    obtain ⟨ha1, ha2, ha3⟩ := hl a (by simp)
    have has : ∀ s ∈ as, s ≠ [] ∧ s ≠ [46] ∧ s ≠ [46, 46] :=
      fun s hs => hl s (by simp [hs])
    have hstep : resolveStep acc a = acc ++ [a] := by
      unfold resolveStep
      rw [if_neg (by simp [ha1, ha2]), if_neg ha3]
    simp only [List.foldl_cons, hstep, ih (acc ++ [a]) has, List.append_assoc,
      List.singleton_append]

lemma foldl_resolveStep_mem :
    ∀ (l acc : List (List Nat)),
      (∀ s ∈ acc, s ≠ [] ∧ s ≠ [46] ∧ s ≠ [46, 46]) →
      ∀ s ∈ List.foldl resolveStep acc l, s ≠ [] ∧ s ≠ [46] ∧ s ≠ [46, 46] := by
  intro l
  induction l with
  | nil => intro acc hacc; simpa using hacc
  | cons a as ih =>
    intro acc hacc
    simp only [List.foldl_cons]
    apply ih
    unfold resolveStep
    by_cases h1 : a = [] ∨ a = [46]
    · rw [if_pos h1]; exact hacc
    · by_cases h2 : a = [46, 46]
      · rw [if_neg h1, if_pos h2]
        exact fun s hs => hacc s ((List.dropLast_prefix acc).subset hs)
      · rw [if_neg h1, if_neg h2]
        intro s hs
        rw [List.mem_append, List.mem_singleton] at hs
        rcases hs with hs | rfl
        · exact hacc s hs
        · push_neg at h1
          exact ⟨h1.1, h1.2, h2⟩

lemma resolveAbs_plain (xs : List (List Nat)) :
    ∀ s ∈ resolveAbs xs, s ≠ [] ∧ s ≠ [46] ∧ s ≠ [46, 46] :=
  foldl_resolveStep_mem xs [] (by simp)

lemma resolveAbs_idem_append (xs ys : List (List Nat)) :
    resolveAbs (resolveAbs xs ++ ys) = resolveAbs (xs ++ ys) := by
  rw [resolveAbs_append, resolveAbs_append]
  congr 1
  show resolveAbs ([] ++ resolveAbs xs) = resolveAbs xs
  rw [resolveAbs_append]
  exact foldl_resolveStep_plain (resolveAbs xs) (resolveAbs []) (resolveAbs_plain xs)

lemma prefix_foldl_resolveStep :
    ∀ (l acc : List (List Nat)),
      (∀ s ∈ l, s ≠ [46] ∧ s ≠ [46, 46]) →
      acc <+: List.foldl resolveStep acc l := by
  intro l
  induction l with
  | nil => intro acc _; exact List.prefix_refl acc
  | cons a as ih =>
    intro acc hl
    obtain ⟨ha1, ha2⟩ := hl a (by simp)
    have has : ∀ s ∈ as, s ≠ [46] ∧ s ≠ [46, 46] := fun s hs => hl s (by simp [hs])
    simp only [List.foldl_cons]
    by_cases hnil : a = []
    · have : resolveStep acc a = acc := by unfold resolveStep; rw [if_pos (Or.inl hnil)]
      rw [this]; exact ih acc has
    · have : resolveStep acc a = acc ++ [a] := by
        unfold resolveStep
        rw [if_neg (by simp [hnil, ha1]), if_neg ha2]
      rw [this]
      exact (List.prefix_append acc [a]).trans (ih (acc ++ [a]) has)

lemma mem_of_mem_splitOnCode (sep : Nat) :
    ∀ (l seg : List Nat), seg ∈ splitOnCode sep l → ∀ c ∈ seg, c ∈ l := by
  intro l
  induction l with
  | nil =>
    intro seg hseg c hc
    simp [splitOnCode] at hseg
    subst hseg
    simp at hc
  | cons a as ih =>
    intro seg hseg c hc
    unfold splitOnCode at hseg
    rcases hsplit : splitOnCode sep as with - | ⟨s, rest⟩
    · rw [hsplit] at hseg
      simp at hseg
      subst hseg
      simp at hc
    · rw [hsplit] at hseg
      by_cases hsep : a = sep
      · simp only [if_pos hsep, List.mem_cons] at hseg
        rcases hseg with rfl | rfl | h
        · simp at hc
        · exact List.mem_cons_of_mem a (ih seg (by rw [hsplit]; simp) c hc)
        · exact List.mem_cons_of_mem a (ih seg (by rw [hsplit]; simp [h]) c hc)
      · simp only [if_neg hsep, List.mem_cons] at hseg
        rcases hseg with heq | h
        · subst heq
          rcases List.mem_cons.mp hc with hca | hc2
          · rw [hca]; exact List.mem_cons_self _ _
          · exact List.mem_cons_of_mem _ (ih s (by rw [hsplit]; simp) c hc2)
        · exact List.mem_cons_of_mem _ (ih seg (by rw [hsplit]; simp [h]) c hc)

lemma splitSlash_normalize_no_dot_segs (userPath : List Nat) :
    ∀ s ∈ splitSlash (normalize userPath), s ≠ [46] ∧ s ≠ [46, 46] := by
  intro s hs
  have hsub : ∀ c ∈ s, c ∈ normalize userPath :=
    mem_of_mem_splitOnCode 47 (normalize userPath) s hs
  constructor
  · intro h
    exact normalize_no_dot userPath (hsub 46 (by simp [h]))
  · intro h
    exact normalize_no_dot userPath (hsub 46 (by simp [h]))

/-! ## C2: the delete handler's path join -/

/-- C2 counterexample: for the filename `a.txt` the delete handler's
candidate is `/srv/app/public/a.txt`, which is not the join of the
upload root `/srv/app/public/uploads` with `a.txt`, and is not even a
descendant of the upload root. -/
theorem deleteCandidate_not_join_of_uploadRoot :
    deleteCandidate dirC (str "a.txt") =
      [str "srv", str "app", str "public", str "a.txt"] ∧
    deleteCandidate dirC (str "a.txt") ≠
      resolveAbs (uploadRoot dirC ++ splitSlash (str "a.txt")) ∧
    ¬ uploadRoot dirC <+: deleteCandidate dirC (str "a.txt") := by decide

/-- C2 (amended): for every path in a delete request, the handler joins
the *parent directory* of the upload root (the `public` directory, of
which the upload root is the `uploads` subdirectory) with the
caller-supplied path, and attempts removal of that candidate. -/
theorem deleteCandidate_joins_publicDir (dirname : List (List Nat)) (filename : List Nat) :
    deleteCandidate dirname filename =
      resolveAbs (publicDir dirname ++ splitSlash filename) ∧
    uploadRoot dirname = publicDir dirname ++ [str "uploads"] ∧
    ∀ q : List Nat, deleteCandidates dirname q =
      (splitComma q).map (deleteCandidate dirname) := by
  refine ⟨?_, ?_, fun q => rfl⟩
  · unfold deleteCandidate publicDir
    rw [resolveAbs_idem_append]
  · unfold uploadRoot publicDir
    have h2 : dirname ++ [str "..", str "public", str "uploads"] =
        (dirname ++ [str "..", str "public"]) ++ [str "uploads"] := by simp
    rw [h2, resolveAbs_append]
    simp only [List.foldl_cons, List.foldl_nil]
    unfold resolveStep
    rw [if_neg (by decide), if_neg (by decide)]

/-! ## C4: no containment check in the resolver -/

/-- C4 counterexample: handed the subpath `..`, the join-and-mkdir
stage of `storage.destination` resolves to `/srv/app/public` — not a
descendant of the upload root `/srv/app/public/uploads` — and still
succeeds instead of rejecting: the code has no containment check. -/
theorem resolveStage_accepts_escape :
    resolveStage dirC (str "..") true =
      .ok [str "srv", str "app", str "public"] ∧
    ¬ uploadRoot dirC <+: [str "srv", str "app", str "public"] := by decide

/-- C4 (amended): the resolver performs no containment check of its own
(whenever `mkdir` succeeds it accepts the joined path as-is); the
containment of destination paths inside the upload root holds only
transitively, because `storage.destination` always feeds the normalizer
output to the join: for every user path the computed destination is a
descendant of the upload root. -/
theorem destination_always_under_uploadRoot (dirname : List (List Nat))
    (userPath : List Nat) :
    resolveStage dirname (normalize userPath) true = .ok (destinationPath dirname userPath) ∧
    uploadRoot dirname <+: destinationPath dirname userPath := by
  refine ⟨rfl, ?_⟩
  unfold destinationPath
  rw [resolveAbs_append]
  exact prefix_foldl_resolveStep _ _ (splitSlash_normalize_no_dot_segs userPath)

/-! ## C3: upload with zero files -/

/-- C3: an upload request with a valid API key and zero files leaves
`req.files` as an *empty array* (the multipart middleware always sets
an array for `upload.array("files")`), so the handler's
`!req.files || !Array.isArray(req.files)` guard does not fire: the
response is 200 with an empty `files` list — not the 400 `NoFilesError`
the spec requires — and nothing is written to the filesystem. -/
theorem upload_zero_files_returns_200 :
    uploadEndpoint (some (str "secret")) (some (str "secret")) dirC [] 1700000000000
        (some []) =
      (⟨200, str "Files uploaded successfully.", []⟩, []) := by decide

/-! ## C5: the API key gate -/

/-- C5: a request to `/upload` or `/delete` whose `x-api-key` header is
absent or differs from the configured key gets a 403 response, and the
upload/delete logic is never invoked: nothing is written and the
filesystem state is unchanged. -/
theorem apiKeyGate_rejects (key : List Nat) (header : Option (List Nat))
    (dirname : List (List Nat)) (userPath : List Nat) (now : Nat)
    (reqFiles : Option (List UploadedFile)) (q : Option (List Nat)) (fs : FS)
    (h : header = none ∨ header ≠ some key) :
    uploadEndpoint (some key) header dirname userPath now reqFiles =
      (⟨403, str "Forbidden: Invalid API Key", []⟩, []) ∧
    deleteEndpoint (some key) header dirname q fs =
      ⟨⟨403, str "Forbidden: Invalid API Key", []⟩, fs⟩ := by
  have hg : validateApiKey header (some key) = false := by
    cases header with
    | none => rfl
    | some s =>
      rcases h with h | h
      · exact absurd h (by simp)
      · have hs : ¬ s = key := fun hk => h (by rw [hk])
        simp [validateApiKey, hs]
  unfold uploadEndpoint deleteEndpoint
  rw [hg]
  simp

theorem apiKeyGate_rejects_witness :
    ((some (str "bad") : Option (List Nat)) = none ∨
      (some (str "bad") : Option (List Nat)) ≠ some (str "key")) ∧
    (uploadEndpoint (some (str "key")) (some (str "bad")) dirC [] 0 none =
        (⟨403, str "Forbidden: Invalid API Key", []⟩, []) ∧
      deleteEndpoint (some (str "key")) (some (str "bad")) dirC none [] =
        ⟨⟨403, str "Forbidden: Invalid API Key", []⟩, []⟩) :=
  ⟨Or.inr (by decide),
    apiKeyGate_rejects (str "key") (some (str "bad")) dirC [] 0 none none []
      (Or.inr (by decide))⟩

/-! ## Lemmas on the delete pipeline -/

lemma runDeletes_len : ∀ (paths : List (List (List Nat))) (fs : FS),
    (runDeletes fs paths).2.length = paths.length := by
  intro paths
  induction paths with
  | nil => intro fs; rfl
  | cons p ps ih =>
    intro fs
    simp [runDeletes, ih]

lemma runDeletes_fs_subset : ∀ (paths : List (List (List Nat))) (fs : FS),
    (runDeletes fs paths).1 ⊆ fs := by
  intro paths
  induction paths with
  | nil => intro fs; exact fun x hx => hx
  | cons p ps ih =>
    intro fs x hx
    by_cases hp : p ∈ fs
    · simp only [runDeletes, unlinkModel, if_pos hp] at hx
      exact List.erase_subset p fs (ih (fs.erase p) hx)
    · simp only [runDeletes, unlinkModel, if_neg hp] at hx
      exact ih fs hx

lemma runDeletes_removes : ∀ (paths : List (List (List Nat))) (fs : FS)
    (p : List (List Nat)), fs.Nodup → p ∈ fs → p ∈ paths →
    p ∉ (runDeletes fs paths).1 := by
  intro paths
  induction paths with
  | nil => intro fs p _ _ hp; simp at hp
  | cons a as ih =>
    intro fs p hnd hpfs hpmem
    by_cases ha : a ∈ fs
    · simp only [runDeletes, unlinkModel, if_pos ha]
      by_cases hpa : p = a
      · subst hpa
        intro hcon
        have hm : p ∈ fs.erase p := runDeletes_fs_subset as (fs.erase p) hcon
        exact ((hnd.mem_erase_iff).mp hm).1 rfl
      · have hpas : p ∈ as := by
          rcases List.mem_cons.mp hpmem with h | h
          · exact absurd h hpa
          · exact h
        exact ih (fs.erase a) p (hnd.erase a)
          ((hnd.mem_erase_iff).mpr ⟨hpa, hpfs⟩) hpas
    · simp only [runDeletes, unlinkModel, if_neg ha]
      have hpa : ¬ p = a := fun h => ha (h ▸ hpfs)
      have hpas : p ∈ as := by
        rcases List.mem_cons.mp hpmem with h | h
        · exact absurd h hpa
        · exact h
      exact ih fs p hnd hpfs hpas

lemma runDeletes_missing_err : ∀ (paths : List (List (List Nat))) (fs : FS)
    (q : List (List Nat)), q ∈ paths → q ∉ fs →
    UnlinkResult.err (enoentMsg q) ∈ (runDeletes fs paths).2 := by
  intro paths
  induction paths with
  | nil => intro fs q hq _; simp at hq
  | cons a as ih =>
    intro fs q hq hqf
    by_cases ha : a ∈ fs
    · have hqa : ¬ q = a := fun h => hqf (h ▸ ha)
      have hqas : q ∈ as := by
        rcases List.mem_cons.mp hq with h | h
        · exact absurd h hqa
        · exact h
      simp only [runDeletes, unlinkModel, if_pos ha]
      exact List.mem_cons_of_mem _
        (ih (fs.erase a) q hqas (fun h => hqf (List.erase_subset a fs h)))
    · simp only [runDeletes, unlinkModel, if_neg ha]
      rcases List.mem_cons.mp hq with rfl | hqas
      · exact List.mem_cons_self _ _
      · exact List.mem_cons_of_mem _ (ih fs q hqas hqf)

lemma runDeletes_errors_eq : ∀ (paths : List (List (List Nat))) (fs : FS),
    collectErrors (runDeletes fs paths).2 = (failedPaths fs paths).map enoentMsg := by
  intro paths
  induction paths with
  | nil => intro fs; rfl
  | cons a as ih =>
    intro fs
    by_cases ha : a ∈ fs
    · simp only [runDeletes, unlinkModel, failedPaths, if_pos ha]
      simpa [collectErrors] using ih (fs.erase a)
    · simp only [runDeletes, unlinkModel, failedPaths, if_neg ha]
      simpa [collectErrors] using ih fs

lemma failedPaths_subset : ∀ (paths : List (List (List Nat))) (fs : FS),
    failedPaths fs paths ⊆ paths := by
  intro paths
  induction paths with
  | nil => intro fs; simp [failedPaths]
  | cons a as ih =>
    intro fs x hx
    by_cases ha : a ∈ fs
    · simp only [failedPaths, if_pos ha] at hx
      exact List.mem_cons_of_mem a (ih (fs.erase a) hx)
    · simp only [failedPaths, if_neg ha, List.mem_cons] at hx
      rcases hx with rfl | hx
      · exact List.mem_cons_self _ _
      · exact List.mem_cons_of_mem a (ih fs hx)

/-! ## C7: deletions are independent, no short-circuit -/

/-- C7: in a delete request every deletion is attempted even if earlier
ones failed: the result list has one entry per requested path, a path
present in the filesystem and among the requests is removed, and a
requested path absent from the filesystem contributes its error to the
response. -/
theorem delete_no_short_circuit (fs : FS) (paths : List (List (List Nat)))
    (p q : List (List Nat)) (hnd : fs.Nodup) (hp : p ∈ fs) (hpp : p ∈ paths)
    (hq : q ∈ paths) (hqf : q ∉ fs) :
    (runDeletes fs paths).2.length = paths.length ∧
    p ∉ (runDeletes fs paths).1 ∧
    enoentMsg q ∈ (deleteAggregate (runDeletes fs paths).2).errors := by
  refine ⟨runDeletes_len paths fs, runDeletes_removes paths fs p hnd hp hpp, ?_⟩
  have herr := runDeletes_missing_err paths fs q hq hqf
  have hmem : enoentMsg q ∈ collectErrors (runDeletes fs paths).2 := by
    unfold collectErrors
    exact List.mem_filterMap.mpr ⟨UnlinkResult.err (enoentMsg q), herr, rfl⟩
  unfold deleteAggregate
  have hne : ¬ (collectErrors (runDeletes fs paths).2).isEmpty := by
    intro h
    rw [List.isEmpty_iff] at h
    rw [h] at hmem
    simp at hmem
  simp only [if_neg hne]
  exact hmem

theorem delete_no_short_circuit_witness :
    ([[str "a"]] : FS).Nodup ∧ [str "a"] ∈ ([[str "a"]] : FS) ∧
    [str "a"] ∈ [[str "a"], [str "b"]] ∧ [str "b"] ∈ [[str "a"], [str "b"]] ∧
    [str "b"] ∉ ([[str "a"]] : FS) ∧
    ((runDeletes [[str "a"]] [[str "a"], [str "b"]]).2.length =
        ([[str "a"], [str "b"]] : List (List (List Nat))).length ∧
      [str "a"] ∉ (runDeletes [[str "a"]] [[str "a"], [str "b"]]).1 ∧
      enoentMsg [str "b"] ∈
        (deleteAggregate (runDeletes [[str "a"]] [[str "a"], [str "b"]]).2).errors) :=
  ⟨by decide, by decide, by decide, by decide, by decide,
    delete_no_short_circuit [[str "a"]] [[str "a"], [str "b"]] [str "a"] [str "b"]
      (by decide) (by decide) (by decide) (by decide) (by decide)⟩

/-! ## C8: the aggregation of deletion outcomes -/

/-- C8: the delete handler produces one outcome per requested path; the
response lists exactly the error messages of the failed deletions, with
status 500 when there is at least one failure and status 200 (and an
empty error list) when all deletions succeeded. -/
theorem delete_aggregation (fs : FS) (paths : List (List (List Nat))) :
    (runDeletes fs paths).2.length = paths.length ∧
    collectErrors (runDeletes fs paths).2 = (failedPaths fs paths).map enoentMsg ∧
    deleteAggregate (runDeletes fs paths).2 =
      if failedPaths fs paths = [] then
        ⟨200, str "Files deleted successfully.", []⟩
      else ⟨500, str "Error deleting files.", (failedPaths fs paths).map enoentMsg⟩ := by
  refine ⟨runDeletes_len paths fs, runDeletes_errors_eq paths fs, ?_⟩
  unfold deleteAggregate
  rw [runDeletes_errors_eq]
  by_cases h : failedPaths fs paths = []
  · simp [h]
  · rw [if_neg h, if_neg ?_]
    simp [List.isEmpty_iff, h]

/-! ## C9: failure responses leak internal paths -/

/-- C9 counterexample: deleting the missing file `b.txt` (valid key,
empty filesystem) produces a 500 response whose `errors` array contains
the raw `ENOENT` message, which embeds the server's absolute internal
path `/srv/app/public/b.txt`. -/
theorem delete_error_leaks_internal_path :
    (deleteEndpoint (some (str "key")) (some (str "key")) dirC
        (some (str "b.txt")) []).response.errors =
      [enoentMsg [str "srv", str "app", str "public", str "b.txt"]] ∧
    renderPath [str "srv", str "app", str "public", str "b.txt"] <:+:
      enoentMsg [str "srv", str "app", str "public", str "b.txt"] ∧
    (deleteEndpoint (some (str "key")) (some (str "key")) dirC
        (some (str "b.txt")) []).response.status = 500 := by decide

/-- C9 (amended): failing delete responses do carry a `message` field
and an `errors` array of strings, but each error string is the raw
filesystem error message and embeds the absolute internal server path
of the file it concerns. -/
theorem delete_failure_errors_embed_paths (fs : FS) (cands : List (List (List Nat))) :
    ∀ e ∈ (deleteAggregate (runDeletes fs cands).2).errors,
      ∃ p ∈ cands, e = enoentMsg p ∧ renderPath p <:+: e := by
  intro e he
  have hsub : e ∈ (failedPaths fs cands).map enoentMsg := by
    unfold deleteAggregate at he
    by_cases h : (collectErrors (runDeletes fs cands).2).isEmpty
    · rw [if_pos h] at he
      simp at he
    · rw [if_neg h] at he
      rw [runDeletes_errors_eq] at he
      exact he
  obtain ⟨p, hpmem, rfl⟩ := List.mem_map.mp hsub
  refine ⟨p, failedPaths_subset cands fs hpmem, rfl, ?_⟩
  exact ⟨str "ENOENT: no such file or directory, unlink " ++ [39], [39], rfl⟩

theorem delete_failure_errors_embed_paths_witness :
    enoentMsg [str "b"] ∈
      (deleteAggregate (runDeletes ([] : FS) [[str "b"]]).2).errors ∧
    ∃ p ∈ [[str "b"]], enoentMsg [str "b"] = enoentMsg p ∧
      renderPath p <:+: enoentMsg [str "b"] :=
  ⟨by decide,
    delete_failure_errors_embed_paths [] [[str "b"]] (enoentMsg [str "b"]) (by decide)⟩

end StorageApi
